import Mathlib

/-!
Verification of the `shell_emulator.py` command engine: a UNIX-like shell over a
read-only virtual file system (a table of `path → {kind, size}` entries), with a
current-directory state and an append-only audit log.  The definitions below are a
shallow embedding of the Python source (`ShellEmulator`); strings are modelled as
Lean `String`, the Python dict as an association list in insertion order, and the
audit log as a list of `(action, details)` pairs.
-/

/-- Splits a character list at every occurrence of `sep`, keeping empty pieces.
Embeds Python `str.split(sep)` for a one-character separator, as used by
`posixpath.normpath` (`path.split('/')`). -/
def splitChar (sep : Char) : List Char → List (List Char)
  | [] => [[]]
  | c :: cs =>
    if c = sep then [] :: splitChar sep cs
    else
      match splitChar sep cs with
      | [] => [[c]]
      | p :: ps => (c :: p) :: ps

/-- Embeds `'/'.join(comps)` from `posixpath.normpath`. -/
def joinComps : List (List Char) → List Char
  | [] => []
  | [x] => x
  | x :: y :: ys => x ++ '/' :: joinComps (y :: ys)

/-- Embeds the `initial_slashes` computation of `posixpath.normpath`:
1 when the path starts with `/`, except 2 for exactly two leading slashes
(POSIX treats `//` specially), 0 otherwise. -/
def initialSlashes (l : List Char) : Nat :=
  if ['/', '/'].isPrefixOf l && !(['/', '/', '/'].isPrefixOf l) then 2
  else if ['/'].isPrefixOf l then 1
  else 0

/-- One iteration of the component loop of `posixpath.normpath`: skip empty and
`.` components, append any component that is not a `..` needing cancellation
(`..` survives at the start of a relative path or after a surviving `..`),
otherwise pop the previous component (`new_comps.pop()`; `List.dropLast` is a
no-op on `[]`, matching the guarding `elif new_comps`). -/
def normStep (slashes : Nat) (acc : List (List Char)) (comp : List Char) : List (List Char) :=
  if comp = [] ∨ comp = ['.'] then acc
  else if comp ≠ ['.', '.'] ∨ (slashes = 0 ∧ acc = []) ∨
      (acc ≠ [] ∧ acc.getLast? = some ['.', '.']) then
    acc ++ [comp]
  else
    acc.dropLast

/-- The component loop of `posixpath.normpath` over all split components. -/
def normComps (slashes : Nat) (comps : List (List Char)) : List (List Char) :=
  comps.foldl (normStep slashes) []

/-- The final assembly of `posixpath.normpath`: re-join the components, restore
the leading slashes, and return `.` for an empty result (`return path or dot`). -/
def normFinish (slashes : Nat) (comps : List (List Char)) : List Char :=
  if List.replicate slashes '/' ++ joinComps comps = [] then ['.']
  else List.replicate slashes '/' ++ joinComps comps

/-- Embeds `posixpath.normpath` on the character list of the path
(empty input also normalizes to `.`). -/
def normList (l : List Char) : List Char :=
  if l = [] then ['.']
  else normFinish (initialSlashes l) (normComps (initialSlashes l) (splitChar '/' l))

/-- Embeds `os.path.normpath` (POSIX flavour) on strings. -/
def normpath (s : String) : String := ⟨normList s.data⟩

/-- Embeds `path.startswith('/')`: the first character is `/`. -/
def startsWithSlash (l : List Char) : Bool :=
  match l with
  | [] => false
  | c :: _ => c == '/'

/-- Embeds `path.endswith('/')`. -/
def endsWithSlash (l : List Char) : Bool :=
  match l.getLast? with
  | some c => c == '/'
  | none => false

/-- Embeds the two-argument `os.path.join(a, b)` (POSIX flavour): an absolute
`b` replaces `a`; otherwise `b` is appended after `a`, inserting a `/` unless
`a` is empty or already ends in `/`. -/
def joinList (a b : List Char) : List Char :=
  if startsWithSlash b then b
  else if a = [] ∨ endsWithSlash a then a ++ b
  else a ++ '/' :: b

/-- Embeds `ShellEmulator.resolve_path`: join a relative path after the current
directory, then normalize. -/
def resolve_path (currentDir path : String) : String :=
  if startsWithSlash path.data then ⟨normList path.data⟩
  else ⟨normList (joinList currentDir.data path.data)⟩

/-- Embeds Python `s.startswith(pre)` on strings. -/
def pyStartswith (s pre : String) : Bool := pre.data.isPrefixOf s.data

/-- The `'type'` field of a VFS entry: `'dir'` or `'file'`. -/
inductive Kind
  | dir
  | file
  deriving DecidableEq

/-- Embeds the Python test `entry['type'] == 'dir'`. -/
def Kind.isDir : Kind → Bool
  | Kind.dir => true
  | Kind.file => false

/-- One VFS record: the value `{'type': ..., 'size': ...}` stored in `self.fs`. -/
structure Entry where
  kind : Kind
  size : Nat
  deriving DecidableEq

/-- The VFS table `self.fs`: a Python dict modelled as an association list in
insertion order (dict keys are unique; iteration order is insertion order). -/
abbrev FS := List (String × Entry)

/-- Dict lookup `fs[p]` as an `Option` (first matching key). -/
def fsLookup? : FS → String → Option Entry
  | [], _ => none
  | (k, v) :: rest, p => if k = p then some v else fsLookup? rest p

/-- Embeds the membership test `path in self.fs`. -/
def fsContains (fs : FS) (p : String) : Bool := (fsLookup? fs p).isSome

/-- Embeds `for name in self.fs`: the keys in iteration order. -/
def fsKeys (fs : FS) : List String := fs.map Prod.fst

/-- Embeds `path in self.fs and self.fs[path]['type'] == 'dir'`. -/
def isDirAt (fs : FS) (p : String) : Bool :=
  match fsLookup? fs p with
  | some e => e.kind.isDir
  | none => false

/-- The size `self.fs[name]['size']` read during the `du` sum; total with
default 0, the lookup never misses since `name` ranges over the keys. -/
def fsSizeAt (fs : FS) (name : String) : Nat :=
  match fsLookup? fs name with
  | some e => e.size
  | none => 0

/-- Embeds `sum(self.fs[name]['size'] for name in self.fs if name.startswith(path))`. -/
def duSizeKeys (fs : FS) (path : String) : Nat :=
  (((fsKeys fs).filter fun name => pyStartswith name path).map (fsSizeAt fs)).sum

/-- The mutable state of `ShellEmulator` relevant to the command engine:
the VFS table, `self.current_dir`, and the audit log (a list of
`(action, details)` records, appended to by `log_action`). -/
structure ShellState where
  fs : FS
  current_dir : String
  log : List (String × String)
  deriving DecidableEq

/-- The target of `ls`: `self.resolve_path(args[0] if args else '.')`. -/
def lsTarget (s : ShellState) (args : List String) : String :=
  resolve_path s.current_dir (args.headD ".")

/-- Embeds `ShellEmulator.command_ls`. -/
def command_ls (s : ShellState) (args : List String) : String × ShellState :=
  let path := lsTarget s args
  if isDirAt s.fs path then
    (String.intercalate "\n" ((fsKeys s.fs).filter fun name => pyStartswith name path && name != path),
     { s with log := s.log ++ [("ls", path)] })
  else
    ("ls: cannot access '" ++ path ++ "': No such file or directory", s)

/-- The target of `cd`: `self.resolve_path(args[0]) if args else '/'`. -/
def cdTarget (s : ShellState) (args : List String) : String :=
  match args with
  | [] => "/"
  | a :: _ => resolve_path s.current_dir a

/-- Embeds `ShellEmulator.command_cd`. -/
def command_cd (s : ShellState) (args : List String) : String × ShellState :=
  let path := cdTarget s args
  if isDirAt s.fs path then
    ("", { s with current_dir := path, log := s.log ++ [("cd", path)] })
  else
    ("cd: " ++ path ++ ": No such file or directory", s)

/-- Embeds `ShellEmulator.command_uname`. -/
def command_uname (s : ShellState) (_args : List String) : String × ShellState :=
  ("UNIX Shell Emulator", { s with log := s.log ++ [("uname", "")] })

/-- Embeds `ShellEmulator.command_chmod` (`len(args) != 2` is the wildcard case). -/
def command_chmod (s : ShellState) (args : List String) : String × ShellState :=
  match args with
  | [mode, p] =>
    let path := resolve_path s.current_dir p
    if fsContains s.fs path then
      ("", { s with log := s.log ++ [("chmod", mode ++ " " ++ path)] })
    else
      ("chmod: cannot access '" ++ path ++ "': No such file or directory", s)
  | _ => ("chmod: missing operand", s)

/-- The target of `du`: `self.resolve_path(args[0]) if args else self.current_dir`. -/
def duTarget (s : ShellState) (args : List String) : String :=
  match args with
  | [] => s.current_dir
  | a :: _ => resolve_path s.current_dir a

/-- Embeds `ShellEmulator.command_du`. -/
def command_du (s : ShellState) (args : List String) : String × ShellState :=
  let path := duTarget s args
  if fsContains s.fs path then
    (toString (duSizeKeys s.fs path) ++ "\t" ++ path, { s with log := s.log ++ [("du", path)] })
  else
    ("du: cannot access '" ++ path ++ "': No such file or directory", s)

/-- The whitespace class of Python `str.split()` with no separator
(space, tab, newline, carriage return, vertical tab, form feed). -/
def isSpaceChar (c : Char) : Bool :=
  c == ' ' || c == '\t' || c == '\n' || c == '\r' || c == Char.ofNat 11 || c == Char.ofNat 12

/-- Worker for whitespace splitting: split at runs of whitespace, dropping
empty pieces, accumulating the current word reversed. -/
def wordsAux : List Char → List Char → List (List Char)
  | [], acc => if acc = [] then [] else [acc.reverse]
  | c :: cs, acc =>
    if isSpaceChar c then
      if acc = [] then wordsAux cs [] else acc.reverse :: wordsAux cs []
    else wordsAux cs (c :: acc)

/-- Embeds `command_line.strip().split()`: splitting on whitespace runs with no
empty tokens (the leading `strip()` is absorbed by no-separator `split()`). -/
def pySplitWhitespace (s : String) : List String :=
  (wordsAux s.data []).map fun w => ⟨w⟩

/-- The result of dispatching one command line: the output string, the new
state, and whether the session terminated (`exit(0)` in `command_exit`). -/
structure RunResult where
  out : String
  state : ShellState
  exited : Bool
  deriving DecidableEq

/-- Embeds `ShellEmulator.command_exit`: log `("exit", "")`, then `exit(0)`
(modelled as the terminal flag; no output is ever displayed). -/
def command_exit (s : ShellState) (_args : List String) : RunResult :=
  ⟨"", { s with log := s.log ++ [("exit", "")] }, true⟩

/-- Embeds `ShellEmulator.run_command`: tokenize the line, dispatch on the
first token through the command table, unknown verbs report
`<verb>: command not found`. -/
def run_command (s : ShellState) (line : String) : RunResult :=
  match pySplitWhitespace line with
  | [] => ⟨"", s, false⟩
  | command :: args =>
    if command = "ls" then
      let r := command_ls s args; ⟨r.1, r.2, false⟩
    else if command = "cd" then
      let r := command_cd s args; ⟨r.1, r.2, false⟩
    else if command = "exit" then command_exit s args
    else if command = "uname" then
      let r := command_uname s args; ⟨r.1, r.2, false⟩
    else if command = "chmod" then
      let r := command_chmod s args; ⟨r.1, r.2, false⟩
    else if command = "du" then
      let r := command_du s args; ⟨r.1, r.2, false⟩
    else ⟨command ++ ": command not found", s, false⟩

/-- The state right after `__init__`: current directory `/`, empty log. -/
def initState (fs : FS) : ShellState := ⟨fs, "/", []⟩

/-- The session states reachable from startup by running command lines. -/
inductive Reachable (fs : FS) : ShellState → Prop
  | init : Reachable fs (initState fs)
  | step (s : ShellState) (line : String) :
      Reachable fs s → Reachable fs (run_command s line).state

/-- Spec-side transcription of the audit-log discipline (spec §4.3 command
table and §8): the records one input line appends — one record with the
command's action name on each success branch (`exit` and `uname` always
succeed), none for empty lines, unknown verbs, or validation failures. -/
def specLogDelta (s : ShellState) (line : String) : List (String × String) :=
  match pySplitWhitespace line with
  | [] => []
  | command :: args =>
    if command = "ls" then
      if isDirAt s.fs (lsTarget s args) then [("ls", lsTarget s args)] else []
    else if command = "cd" then
      if isDirAt s.fs (cdTarget s args) then [("cd", cdTarget s args)] else []
    else if command = "exit" then [("exit", "")]
    else if command = "uname" then [("uname", "")]
    else if command = "chmod" then
      match args with
      | [mode, p] =>
        if fsContains s.fs (resolve_path s.current_dir p) then
          [("chmod", mode ++ " " ++ resolve_path s.current_dir p)]
        else []
      | _ => []
    else if command = "du" then
      if fsContains s.fs (duTarget s args) then [("du", duTarget s args)] else []
    else []

/-! ### Checked semantics: dict subscription may raise `KeyError` -/

/-- Dict subscription `fs[p]` in the checked semantics: `Except.error` models
the `KeyError` Python would raise on a missing key. -/
def fsIndex (fs : FS) (p : String) : Except String Entry :=
  match fsLookup? fs p with
  | some e => Except.ok e
  | none => Except.error "KeyError"

/-- The `du` size sum in the checked semantics: iterate the keys in order,
filter by `startswith`, subscript the dict for each kept key. -/
def duSumExc (fs : FS) (path : String) : List String → Nat → Except String Nat
  | [], acc => Except.ok acc
  | name :: rest, acc =>
    if pyStartswith name path then
      match fsIndex fs name with
      | Except.ok e => duSumExc fs path rest (acc + e.size)
      | Except.error err => Except.error err
    else duSumExc fs path rest acc

/-- `command_ls` in the checked semantics: the subscript
`self.fs[path]['type']` happens only after `path in self.fs` (Python's
short-circuiting `and`). -/
def command_ls_exc (s : ShellState) (args : List String) :
    Except String (String × ShellState) :=
  let path := lsTarget s args
  if fsContains s.fs path then
    match fsIndex s.fs path with
    | Except.error err => Except.error err
    | Except.ok e =>
      if e.kind.isDir then
        Except.ok (String.intercalate "\n" ((fsKeys s.fs).filter fun name =>
            pyStartswith name path && name != path),
          { s with log := s.log ++ [("ls", path)] })
      else
        Except.ok ("ls: cannot access '" ++ path ++ "': No such file or directory", s)
  else Except.ok ("ls: cannot access '" ++ path ++ "': No such file or directory", s)

/-- `command_cd` in the checked semantics, with the guarded subscript. -/
def command_cd_exc (s : ShellState) (args : List String) :
    Except String (String × ShellState) :=
  let path := cdTarget s args
  if fsContains s.fs path then
    match fsIndex s.fs path with
    | Except.error err => Except.error err
    | Except.ok e =>
      if e.kind.isDir then
        Except.ok ("", { s with current_dir := path, log := s.log ++ [("cd", path)] })
      else Except.ok ("cd: " ++ path ++ ": No such file or directory", s)
  else Except.ok ("cd: " ++ path ++ ": No such file or directory", s)

/-- `command_du` in the checked semantics: the sum subscripts the dict once
per iterated key. -/
def command_du_exc (s : ShellState) (args : List String) :
    Except String (String × ShellState) :=
  let path := duTarget s args
  if fsContains s.fs path then
    match duSumExc s.fs path (fsKeys s.fs) 0 with
    | Except.error err => Except.error err
    | Except.ok size =>
      Except.ok (toString size ++ "\t" ++ path, { s with log := s.log ++ [("du", path)] })
  else Except.ok ("du: cannot access '" ++ path ++ "': No such file or directory", s)

/-- `run_command` in the checked semantics: `chmod`, `uname`, `exit` and the
unknown-verb branch contain no dict subscription and cannot raise. -/
def run_command_exc (s : ShellState) (line : String) : Except String RunResult :=
  match pySplitWhitespace line with
  | [] => Except.ok ⟨"", s, false⟩
  | command :: args =>
    if command = "ls" then
      match command_ls_exc s args with
      | Except.error err => Except.error err
      | Except.ok r => Except.ok ⟨r.1, r.2, false⟩
    else if command = "cd" then
      match command_cd_exc s args with
      | Except.error err => Except.error err
      | Except.ok r => Except.ok ⟨r.1, r.2, false⟩
    else if command = "exit" then Except.ok (command_exit s args)
    else if command = "uname" then
      Except.ok ⟨(command_uname s args).1, (command_uname s args).2, false⟩
    else if command = "chmod" then
      Except.ok ⟨(command_chmod s args).1, (command_chmod s args).2, false⟩
    else if command = "du" then
      match command_du_exc s args with
      | Except.error err => Except.error err
      | Except.ok r => Except.ok ⟨r.1, r.2, false⟩
    else Except.ok ⟨command ++ ": command not found", s, false⟩

/-- A small demonstration table used by concrete witnesses: a directory, two
files under it, and a sibling entry `/home2/x` sharing the string prefix
`/home`. -/
def demoFS : FS :=
  [("/home", ⟨Kind.dir, 0⟩), ("/home/file.txt", ⟨Kind.file, 42⟩),
   ("/home/b", ⟨Kind.file, 8⟩), ("/home2/x", ⟨Kind.file, 7⟩)]

/-! ### Lemmas about splitting and joining on `/` -/

theorem splitChar_ne_nil (sep : Char) (l : List Char) : splitChar sep l ≠ [] := by
  cases l with
  | nil => simp [splitChar]
  | cons c cs =>
    simp only [splitChar]
    split
    · simp
    · split <;> simp

theorem mem_splitChar_not_sep (sep : Char) :
    ∀ (l : List Char), ∀ x ∈ splitChar sep l, sep ∉ x := by
  intro l
  induction l with
  | nil =>
    intro x hx
    simp only [splitChar, List.mem_singleton] at hx
    subst hx; simp
  | cons c cs ih =>
    intro x hx
    simp only [splitChar] at hx
    by_cases hc : c = sep
    · rw [if_pos hc] at hx
      rcases List.mem_cons.mp hx with h | h
      · subst h; simp
      · exact ih x h
    · rw [if_neg hc] at hx
      cases hsp : splitChar sep cs with
      | nil => exact absurd hsp (splitChar_ne_nil sep cs)
      | cons p ps =>
        rw [hsp] at hx
        rcases List.mem_cons.mp hx with h | h
        · subst h
          intro hmem
          rcases List.mem_cons.mp hmem with h1 | h1
          · exact hc h1.symm
          · exact ih p (by rw [hsp]; exact List.mem_cons_self p ps) h1
        · exact ih x (by rw [hsp]; exact List.mem_cons.mpr (Or.inr h))

theorem splitChar_of_not_mem (sep : Char) (x : List Char) (hx : sep ∉ x) :
    splitChar sep x = [x] := by
  induction x with
  | nil => rfl
  | cons c cs ih =>
    have hc : ¬ c = sep := fun h => hx (List.mem_cons.mpr (Or.inl h.symm))
    have hcs : sep ∉ cs := fun h => hx (List.mem_cons_of_mem c h)
    simp only [splitChar, if_neg hc, ih hcs]

theorem splitChar_append_sep (sep : Char) (x t : List Char) (hx : sep ∉ x) :
    splitChar sep (x ++ sep :: t) = x :: splitChar sep t := by
  induction x with
  | nil => simp [splitChar]
  | cons c cs ih =>
    have hc : ¬ c = sep := fun h => hx (List.mem_cons.mpr (Or.inl h.symm))
    have hcs : sep ∉ cs := fun h => hx (List.mem_cons_of_mem c h)
    simp only [List.cons_append, splitChar, if_neg hc, List.append_eq, ih hcs]

theorem splitChar_joinComps (cs : List (List Char)) (hne : cs ≠ [])
    (h : ∀ x ∈ cs, ('/' : Char) ∉ x) : splitChar '/' (joinComps cs) = cs := by
  induction cs with
  | nil => exact absurd rfl hne
  | cons x xs ih =>
    cases xs with
    | nil => simp [joinComps, splitChar_of_not_mem '/' x (h x (by simp))]
    | cons y ys =>
      have hj : joinComps (x :: y :: ys) = x ++ '/' :: joinComps (y :: ys) := rfl
      rw [hj, splitChar_append_sep '/' x _ (h x (by simp)),
        ih (by simp) (fun z hz => h z (List.mem_cons_of_mem x hz))]

theorem splitChar_replicate (k : Nat) (m : List Char) :
    splitChar '/' (List.replicate k '/' ++ m) =
      List.replicate k [] ++ splitChar '/' m := by
  induction k with
  | zero => simp
  | succ n ih => simp [List.replicate_succ, splitChar, ih]

theorem joinComps_ne_nil (cs : List (List Char)) (hne : cs ≠ [])
    (h : ∀ x ∈ cs, x ≠ []) : joinComps cs ≠ [] := by
  cases cs with
  | nil => exact absurd rfl hne
  | cons x xs =>
    cases xs with
    | nil => simpa [joinComps] using h x (by simp)
    | cons y ys =>
      have hx : x ≠ [] := h x (by simp)
      cases x with
      | nil => exact absurd rfl hx
      | cons c cr => simp [joinComps]

theorem startsWithSlash_joinComps (cs : List (List Char))
    (h : ∀ x ∈ cs, x ≠ [] ∧ ('/' : Char) ∉ x) :
    startsWithSlash (joinComps cs) = false := by
  cases cs with
  | nil => rfl
  | cons x xs =>
    obtain ⟨hx, hslash⟩ := h x (by simp)
    cases x with
    | nil => exact absurd rfl hx
    | cons c cr =>
      have hc : (c == '/') = false := by
        simp only [beq_eq_false_iff_ne, ne_eq]
        intro hcc
        exact hslash (by simp [hcc])
      cases xs with
      | nil => simpa [joinComps, startsWithSlash] using hc
      | cons y ys => simpa [joinComps, startsWithSlash] using hc

theorem initialSlashes_le_two (l : List Char) : initialSlashes l ≤ 2 := by
  unfold initialSlashes
  split
  · omega
  · split <;> omega

theorem one_le_initialSlashes (l : List Char) (h : startsWithSlash l = true) :
    1 ≤ initialSlashes l := by
  cases l with
  | nil => simp [startsWithSlash] at h
  | cons c cs =>
    have hc : c = '/' := by simpa [startsWithSlash] using h
    subst hc
    unfold initialSlashes
    split
    · omega
    · rw [if_pos (by simp [List.isPrefixOf])]

theorem initialSlashes_replicate (k : Nat) (hk : k ≤ 2) (m : List Char)
    (hm : startsWithSlash m = false) :
    initialSlashes (List.replicate k '/' ++ m) = k := by
  have hmc : ∀ c r, m = c :: r → ¬ (('/' : Char) = c) := by
    intro c r hcr h
    rw [hcr] at hm
    simp [startsWithSlash, h.symm] at hm
  interval_cases k
  · cases m with
    | nil => decide
    | cons c r =>
      have h2 := hmc c r rfl
      simp only [List.replicate, List.nil_append]
      simp [initialSlashes, List.isPrefixOf, h2]
  · cases m with
    | nil => decide
    | cons c r =>
      have h2 := hmc c r rfl
      simp only [List.replicate, List.nil_append, List.cons_append]
      simp [initialSlashes, List.isPrefixOf, h2]
  · cases m with
    | nil => decide
    | cons c r =>
      have h2 := hmc c r rfl
      simp only [List.replicate, List.nil_append, List.cons_append]
      simp [initialSlashes, List.isPrefixOf, h2]

/-! ### The reduced form produced by the normpath component loop -/

/-- Shape of the component list produced by the `normpath` loop: no empty or
`.` components, no `/` inside a component, all surviving `..` components form
a prefix of the list on a relative path, and none survive on an absolute one. -/
def Reduced (k : Nat) (cs : List (List Char)) : Prop :=
  (∀ c ∈ cs, c ≠ [] ∧ c ≠ ['.'] ∧ ('/' : Char) ∉ c) ∧
  (k = 0 → ∃ m rest, cs = List.replicate m ['.', '.'] ++ rest ∧ ['.', '.'] ∉ rest) ∧
  (k ≠ 0 → ['.', '.'] ∉ cs)

theorem getLast?_replicate_ne (m : Nat) (a : List Char) (hm : m ≠ 0) :
    (List.replicate m a).getLast? = some a := by
  cases m with
  | zero => exact absurd rfl hm
  | succ n =>
    rw [List.replicate_succ', List.getLast?_append_of_ne_nil _ (by simp)]
    rfl

theorem dots_prefix_last (m : Nat) (rest : List (List Char))
    (hrest : ['.', '.'] ∉ rest)
    (hlast : (List.replicate m ['.', '.'] ++ rest).getLast? = some ['.', '.']) :
    rest = [] := by
  cases rest with
  | nil => rfl
  | cons r rs =>
    rw [List.getLast?_append_of_ne_nil _ (by simp)] at hlast
    have hmem : ['.', '.'] ∈ (r :: rs).getLast? := by rw [hlast]; rfl
    exact absurd (List.mem_of_mem_getLast? hmem) hrest

theorem normStep_reduced (k : Nat) (acc : List (List Char)) (comp : List Char)
    (hcomp : ('/' : Char) ∉ comp) (h : Reduced k acc) :
    Reduced k (normStep k acc comp) := by
  obtain ⟨hgood, hdots0, hdots1⟩ := h
  unfold normStep
  by_cases h1 : comp = [] ∨ comp = ['.']
  · rw [if_pos h1]; exact ⟨hgood, hdots0, hdots1⟩
  · rw [if_neg h1]
    push_neg at h1
    obtain ⟨hne, hnd⟩ := h1
    by_cases h2 : comp ≠ ['.', '.'] ∨ (k = 0 ∧ acc = []) ∨
        (acc ≠ [] ∧ acc.getLast? = some ['.', '.'])
    · rw [if_pos h2]
      refine ⟨?_, ?_, ?_⟩
      · intro c hc
        rcases List.mem_append.mp hc with h | h
        · exact hgood c h
        · rw [List.mem_singleton] at h; subst h; exact ⟨hne, hnd, hcomp⟩
      · intro hk0
        obtain ⟨m, rest, hacc, hrest⟩ := hdots0 hk0
        by_cases hdd : comp = ['.', '.']
        · subst hdd
          rcases h2 with h2 | ⟨_, hacc0⟩ | ⟨haccne, hlast⟩
          · exact absurd rfl h2
          · exact ⟨1, [], by rw [hacc0]; rfl, by simp⟩
          · have hrest0 : rest = [] := by
              apply dots_prefix_last m rest hrest
              rw [← hacc]; exact hlast
            subst hrest0
            refine ⟨m + 1, [], ?_, by simp⟩
            rw [hacc, List.append_nil, List.append_nil, List.replicate_succ']
        · exact ⟨m, rest ++ [comp], by rw [hacc, List.append_assoc], by
            intro hmem
            rcases List.mem_append.mp hmem with h | h
            · exact hrest h
            · rw [List.mem_singleton] at h; exact hdd h.symm⟩
      · intro hk1 hmem
        rcases List.mem_append.mp hmem with h | h
        · exact hdots1 hk1 h
        · rw [List.mem_singleton] at h
          rcases h2 with h2 | ⟨hk0, _⟩ | ⟨haccne, hlast⟩
          · exact h2 h.symm
          · exact hk1 hk0
          · exact hdots1 hk1 (List.mem_of_mem_getLast? (by rw [hlast]; exact h ▸ rfl))
    · rw [if_neg h2]
      push_neg at h2
      obtain ⟨hdd, hno2, hno3⟩ := h2
      refine ⟨?_, ?_, ?_⟩
      · intro c hc
        exact hgood c ((List.dropLast_sublist acc).subset hc)
      · intro hk0
        obtain ⟨m, rest, hacc, hrest⟩ := hdots0 hk0
        have haccne : acc ≠ [] := hno2 hk0
        have hlastne : acc.getLast? ≠ some ['.', '.'] := hno3 haccne
        cases rest with
        | nil =>
          exfalso
          rw [List.append_nil] at hacc
          cases hm : m with
          | zero =>
            rw [hm] at hacc; simp at hacc; exact haccne hacc
          | succ n =>
            apply hlastne
            rw [hacc, hm]
            exact getLast?_replicate_ne _ _ (by omega)
        | cons r rs =>
          refine ⟨m, (r :: rs).dropLast, ?_, ?_⟩
          · rw [hacc, List.dropLast_append_of_ne_nil _ (by simp)]
          · intro hmem
            exact hrest ((List.dropLast_sublist (r :: rs)).subset hmem)
      · intro hk1 hmem
        exact hdots1 hk1 ((List.dropLast_sublist acc).subset hmem)

theorem reduced_nil (k : Nat) : Reduced k [] :=
  ⟨by simp, fun _ => ⟨0, [], rfl, by simp⟩, fun _ => by simp⟩

theorem normComps_reduced_aux (k : Nat) :
    ∀ (comps : List (List Char)) (acc : List (List Char)),
      (∀ c ∈ comps, ('/' : Char) ∉ c) → Reduced k acc →
      Reduced k (List.foldl (normStep k) acc comps) := by
  intro comps
  induction comps with
  | nil => intro acc _ h; exact h
  | cons c cs ih =>
    intro acc hmem h
    rw [List.foldl_cons]
    exact ih _ (fun x hx => hmem x (List.mem_cons_of_mem c hx))
      (normStep_reduced k acc c (hmem c (by simp)) h)

theorem normComps_reduced (k : Nat) (l : List Char) :
    Reduced k (normComps k (splitChar '/' l)) :=
  normComps_reduced_aux k _ [] (fun c hc => mem_splitChar_not_sep '/' l c hc) (reduced_nil k)

theorem foldl_normStep_no_dots (k : Nat) :
    ∀ (cs : List (List Char)) (acc : List (List Char)),
      (∀ c ∈ cs, c ≠ [] ∧ c ≠ ['.'] ∧ c ≠ ['.', '.']) →
      List.foldl (normStep k) acc cs = acc ++ cs := by
  intro cs
  induction cs with
  | nil => intro acc _; simp
  | cons c cs ih =>
    intro acc h
    obtain ⟨hne, hnd, hndd⟩ := h c (by simp)
    rw [List.foldl_cons]
    have hstep : normStep k acc c = acc ++ [c] := by
      unfold normStep
      rw [if_neg (by push_neg; exact ⟨hne, hnd⟩), if_pos (Or.inl hndd)]
    rw [hstep, ih _ (fun x hx => h x (List.mem_cons_of_mem c hx))]
    simp

theorem foldl_normStep_dots (m : Nat) :
    ∀ (j : Nat),
      List.foldl (normStep 0) (List.replicate j ['.', '.']) (List.replicate m ['.', '.']) =
        List.replicate (j + m) ['.', '.'] := by
  induction m with
  | zero => intro j; simp
  | succ n ih =>
    intro j
    rw [List.replicate_succ, List.foldl_cons]
    have hcond : (['.', '.'] : List Char) ≠ ['.', '.'] ∨
        (0 = 0 ∧ List.replicate j (['.', '.'] : List Char) = []) ∨
        (List.replicate j (['.', '.'] : List Char) ≠ [] ∧
          (List.replicate j (['.', '.'] : List Char)).getLast? = some ['.', '.']) := by
      cases j with
      | zero => exact Or.inr (Or.inl ⟨rfl, rfl⟩)
      | succ j2 => exact Or.inr (Or.inr ⟨by simp, getLast?_replicate_ne _ _ (by simp)⟩)
    have hstep : normStep 0 (List.replicate j ['.', '.']) ['.', '.'] =
        List.replicate (j + 1) ['.', '.'] := by
      unfold normStep
      rw [if_neg (by simp), if_pos hcond, ← List.replicate_succ']
    rw [hstep, ih (j + 1)]
    congr 1
    omega

theorem normComps_self_of_reduced (k : Nat) (cs : List (List Char)) (h : Reduced k cs) :
    normComps k cs = cs := by
  obtain ⟨hgood, hdots0, hdots1⟩ := h
  by_cases hk : k = 0
  · subst hk
    obtain ⟨m, rest, hcs, hrest⟩ := hdots0 rfl
    have hrestgood : ∀ c ∈ rest, c ≠ [] ∧ c ≠ ['.'] ∧ c ≠ ['.', '.'] := by
      intro c hc
      obtain ⟨h1, h2, _⟩ := hgood c (by rw [hcs]; exact List.mem_append_right _ hc)
      exact ⟨h1, h2, fun hdd => hrest (hdd ▸ hc)⟩
    rw [hcs]
    unfold normComps
    rw [List.foldl_append]
    have h1 : List.foldl (normStep 0) ([] : List (List Char)) (List.replicate m ['.', '.']) =
        List.replicate m ['.', '.'] := by
      have h2 := foldl_normStep_dots m 0
      simpa using h2
    rw [h1, foldl_normStep_no_dots 0 rest _ hrestgood]
  · have hnodots := hdots1 hk
    have hg : ∀ c ∈ cs, c ≠ [] ∧ c ≠ ['.'] ∧ c ≠ ['.', '.'] := by
      intro c hc
      obtain ⟨h1, h2, _⟩ := hgood c hc
      exact ⟨h1, h2, fun hdd => hnodots (hdd ▸ hc)⟩
    unfold normComps
    rw [foldl_normStep_no_dots k cs [] hg]
    simp

theorem foldl_normStep_empties (k : Nat) (j : Nat) (acc : List (List Char)) :
    List.foldl (normStep k) acc (List.replicate j []) = acc := by
  induction j generalizing acc with
  | zero => rfl
  | succ n ih =>
    rw [List.replicate_succ, List.foldl_cons]
    have hstep : normStep k acc [] = acc := by
      unfold normStep
      rw [if_pos (Or.inl rfl)]
    rw [hstep, ih]

theorem normList_ne_nil_input (l : List Char) (hl : l ≠ []) :
    normList l =
      normFinish (initialSlashes l) (normComps (initialSlashes l) (splitChar '/' l)) := by
  unfold normList
  rw [if_neg hl]

theorem normList_normFinish (k : Nat) (cs : List (List Char)) (hk : k ≤ 2)
    (hred : Reduced k cs) : normList (normFinish k cs) = normFinish k cs := by
  cases cs with
  | nil => interval_cases k <;> decide
  | cons c cs' =>
    have hjoin_ne : joinComps (c :: cs') ≠ [] :=
      joinComps_ne_nil _ (by simp) (fun x hx => (hred.1 x hx).1)
    have hne : List.replicate k '/' ++ joinComps (c :: cs') ≠ [] := by
      simp only [ne_eq, List.append_eq_nil]
      intro hand
      exact hjoin_ne hand.2
    have hout : normFinish k (c :: cs') = List.replicate k '/' ++ joinComps (c :: cs') := by
      unfold normFinish
      rw [if_neg hne]
    rw [hout, normList_ne_nil_input _ hne]
    have hsw : startsWithSlash (joinComps (c :: cs')) = false :=
      startsWithSlash_joinComps _ (fun x hx => ⟨(hred.1 x hx).1, (hred.1 x hx).2.2⟩)
    have hks : initialSlashes (List.replicate k '/' ++ joinComps (c :: cs')) = k :=
      initialSlashes_replicate k hk _ hsw
    rw [hks]
    have hsplit : splitChar '/' (List.replicate k '/' ++ joinComps (c :: cs')) =
        List.replicate k [] ++ (c :: cs') := by
      rw [splitChar_replicate,
        splitChar_joinComps _ (by simp) (fun x hx => (hred.1 x hx).2.2)]
    rw [hsplit]
    have hcomps : normComps k (List.replicate k [] ++ (c :: cs')) = c :: cs' := by
      unfold normComps
      rw [List.foldl_append, foldl_normStep_empties k k []]
      exact normComps_self_of_reduced k _ hred
    rw [hcomps, hout]

theorem normList_idem (l : List Char) : normList (normList l) = normList l := by
  by_cases hl : l = []
  · subst hl; decide
  · rw [normList_ne_nil_input l hl]
    exact normList_normFinish (initialSlashes l) _ (initialSlashes_le_two l)
      (normComps_reduced (initialSlashes l) l)

theorem startsWithSlash_normList (l : List Char) (h : startsWithSlash l = true) :
    startsWithSlash (normList l) = true := by
  have hl : l ≠ [] := by
    intro he; rw [he] at h; simp [startsWithSlash] at h
  rw [normList_ne_nil_input l hl]
  have h1 : 1 ≤ initialSlashes l := one_le_initialSlashes l h
  unfold normFinish
  split
  · next heq =>
    exfalso
    have h2 : List.replicate (initialSlashes l) '/' = [] := (List.append_eq_nil.mp heq).1
    rw [List.replicate_eq_nil_iff] at h2
    omega
  · cases hk : initialSlashes l with
    | zero => omega
    | succ n => simp [List.replicate_succ, startsWithSlash]

/-! ### Path resolution: absoluteness and idempotence -/

theorem startsWithSlash_append (a b : List Char) (h : startsWithSlash a = true) :
    startsWithSlash (a ++ b) = true := by
  cases a with
  | nil => simp [startsWithSlash] at h
  | cons c r => simpa [startsWithSlash] using h

theorem startsWithSlash_joinList (a b : List Char) (ha : startsWithSlash a = true) :
    startsWithSlash (joinList a b) = true := by
  unfold joinList
  split
  · next hb => exact hb
  · split
    · exact startsWithSlash_append a b ha
    · exact startsWithSlash_append a ('/' :: b) ha

theorem resolve_path_eq (d p : String) :
    resolve_path d p =
      ⟨normList (if startsWithSlash p.data then p.data else joinList d.data p.data)⟩ := by
  unfold resolve_path
  split <;> rfl

theorem startsWithSlash_resolve (d p : String) (hd : startsWithSlash d.data = true) :
    startsWithSlash (resolve_path d p).data = true := by
  rw [resolve_path_eq]
  by_cases hp : startsWithSlash p.data = true
  · rw [if_pos hp]
    exact startsWithSlash_normList p.data hp
  · rw [if_neg hp]
    exact startsWithSlash_normList _ (startsWithSlash_joinList d.data p.data hd)

theorem resolve_path_idem_abs (d p : String) (hd : startsWithSlash d.data = true) :
    resolve_path d (resolve_path d p) = resolve_path d p := by
  have habs := startsWithSlash_resolve d p hd
  have hdata : (resolve_path d p).data =
      normList (if startsWithSlash p.data then p.data else joinList d.data p.data) := by
    rw [resolve_path_eq d p]
  rw [resolve_path_eq d (resolve_path d p), if_pos habs, hdata, normList_idem]
  exact (resolve_path_eq d p).symm

/-! ### Branch characterizations of the command handlers -/

theorem command_ls_cases (s : ShellState) (args : List String) :
    (isDirAt s.fs (lsTarget s args) = true ∧
      command_ls s args =
        (String.intercalate "\n" ((fsKeys s.fs).filter fun name =>
            pyStartswith name (lsTarget s args) && name != lsTarget s args),
         { s with log := s.log ++ [("ls", lsTarget s args)] })) ∨
    (isDirAt s.fs (lsTarget s args) = false ∧
      command_ls s args =
        ("ls: cannot access '" ++ lsTarget s args ++ "': No such file or directory", s)) := by
  by_cases h : isDirAt s.fs (lsTarget s args) = true
  · exact Or.inl ⟨h, by simp [command_ls, h]⟩
  · exact Or.inr ⟨by simpa using h, by simp [command_ls, h]⟩

theorem command_cd_cases (s : ShellState) (args : List String) :
    (isDirAt s.fs (cdTarget s args) = true ∧
      command_cd s args =
        ("", { s with current_dir := cdTarget s args,
                      log := s.log ++ [("cd", cdTarget s args)] })) ∨
    (isDirAt s.fs (cdTarget s args) = false ∧
      command_cd s args =
        ("cd: " ++ cdTarget s args ++ ": No such file or directory", s)) := by
  by_cases h : isDirAt s.fs (cdTarget s args) = true
  · exact Or.inl ⟨h, by simp [command_cd, h]⟩
  · exact Or.inr ⟨by simpa using h, by simp [command_cd, h]⟩

theorem command_du_cases (s : ShellState) (args : List String) :
    (fsContains s.fs (duTarget s args) = true ∧
      command_du s args =
        (toString (duSizeKeys s.fs (duTarget s args)) ++ "\t" ++ duTarget s args,
         { s with log := s.log ++ [("du", duTarget s args)] })) ∨
    (fsContains s.fs (duTarget s args) = false ∧
      command_du s args =
        ("du: cannot access '" ++ duTarget s args ++ "': No such file or directory", s)) := by
  by_cases h : fsContains s.fs (duTarget s args) = true
  · exact Or.inl ⟨h, by simp [command_du, h]⟩
  · exact Or.inr ⟨by simpa using h, by simp [command_du, h]⟩

theorem command_chmod_cases (s : ShellState) (args : List String) :
    (∃ mode p, args = [mode, p] ∧
       ((fsContains s.fs (resolve_path s.current_dir p) = true ∧
          command_chmod s args =
            ("", { s with log := s.log ++
                [("chmod", mode ++ " " ++ resolve_path s.current_dir p)] })) ∨
        (fsContains s.fs (resolve_path s.current_dir p) = false ∧
          command_chmod s args =
            ("chmod: cannot access '" ++ resolve_path s.current_dir p ++
              "': No such file or directory", s)))) ∨
    (args.length ≠ 2 ∧ command_chmod s args = ("chmod: missing operand", s)) := by
  match args with
  | [mode, p] =>
    refine Or.inl ⟨mode, p, rfl, ?_⟩
    by_cases h : fsContains s.fs (resolve_path s.current_dir p) = true
    · exact Or.inl ⟨h, by simp [command_chmod, h]⟩
    · exact Or.inr ⟨by simpa using h, by simp [command_chmod, h]⟩
  | [] => exact Or.inr ⟨by simp, rfl⟩
  | [a] => exact Or.inr ⟨by simp, rfl⟩
  | a :: b :: c :: rest => exact Or.inr ⟨by simp, rfl⟩

/-! ### Case analysis of the dispatcher -/

theorem run_command_scenarios (s : ShellState) (line : String) :
    (pySplitWhitespace line = [] ∧ run_command s line = ⟨"", s, false⟩) ∨
    (∃ args, pySplitWhitespace line = "ls" :: args ∧
      run_command s line = ⟨(command_ls s args).1, (command_ls s args).2, false⟩) ∨
    (∃ args, pySplitWhitespace line = "cd" :: args ∧
      run_command s line = ⟨(command_cd s args).1, (command_cd s args).2, false⟩) ∨
    (∃ args, pySplitWhitespace line = "exit" :: args ∧
      run_command s line = command_exit s args) ∨
    (∃ args, pySplitWhitespace line = "uname" :: args ∧
      run_command s line = ⟨(command_uname s args).1, (command_uname s args).2, false⟩) ∨
    (∃ args, pySplitWhitespace line = "chmod" :: args ∧
      run_command s line = ⟨(command_chmod s args).1, (command_chmod s args).2, false⟩) ∨
    (∃ args, pySplitWhitespace line = "du" :: args ∧
      run_command s line = ⟨(command_du s args).1, (command_du s args).2, false⟩) ∨
    (∃ command args, pySplitWhitespace line = command :: args ∧
      command ≠ "ls" ∧ command ≠ "cd" ∧ command ≠ "exit" ∧ command ≠ "uname" ∧
      command ≠ "chmod" ∧ command ≠ "du" ∧
      run_command s line = ⟨command ++ ": command not found", s, false⟩) := by
  unfold run_command
  cases hp : pySplitWhitespace line with
  | nil => exact Or.inl ⟨rfl, rfl⟩
  | cons command args =>
    by_cases h1 : command = "ls"
    · subst h1; exact Or.inr (Or.inl ⟨args, rfl, by simp⟩)
    · by_cases h2 : command = "cd"
      · subst h2; exact Or.inr (Or.inr (Or.inl ⟨args, rfl, by simp⟩))
      · by_cases h3 : command = "exit"
        · subst h3
          exact Or.inr (Or.inr (Or.inr (Or.inl ⟨args, rfl, by simp⟩)))
        · by_cases h4 : command = "uname"
          · subst h4
            exact Or.inr (Or.inr (Or.inr (Or.inr (Or.inl ⟨args, rfl,
              by simp [h1, h2, h3]⟩))))
          · by_cases h5 : command = "chmod"
            · subst h5
              exact Or.inr (Or.inr (Or.inr (Or.inr (Or.inr (Or.inl ⟨args, rfl,
                by simp [h1, h2, h3, h4]⟩)))))
            · by_cases h6 : command = "du"
              · subst h6
                exact Or.inr (Or.inr (Or.inr (Or.inr (Or.inr (Or.inr (Or.inl ⟨args, rfl,
                  by simp [h1, h2, h3, h4, h5]⟩))))))
              · exact Or.inr (Or.inr (Or.inr (Or.inr (Or.inr (Or.inr (Or.inr
                  ⟨command, args, rfl, h1, h2, h3, h4, h5, h6,
                    by simp [h1, h2, h3, h4, h5, h6]⟩))))))

theorem run_command_fs (s : ShellState) (line : String) :
    (run_command s line).state.fs = s.fs := by
  rcases run_command_scenarios s line with ⟨_, h⟩ | ⟨args, _, h⟩ | ⟨args, _, h⟩ |
    ⟨args, _, h⟩ | ⟨args, _, h⟩ | ⟨args, _, h⟩ | ⟨args, _, h⟩ |
    ⟨c, args, _, _, _, _, _, _, _, h⟩
  · rw [h]
  · rw [h]
    rcases command_ls_cases s args with ⟨_, he⟩ | ⟨_, he⟩ <;> rw [he]
  · rw [h]
    rcases command_cd_cases s args with ⟨_, he⟩ | ⟨_, he⟩ <;> rw [he]
  · rw [h]; rfl
  · rw [h]; rfl
  · rw [h]
    rcases command_chmod_cases s args with ⟨m, p, ha, ⟨_, he⟩ | ⟨_, he⟩⟩ | ⟨_, he⟩ <;> rw [he]
  · rw [h]
    rcases command_du_cases s args with ⟨_, he⟩ | ⟨_, he⟩ <;> rw [he]
  · rw [h]

theorem run_command_cur_cases (s : ShellState) (line : String) :
    (run_command s line).state.current_dir = s.current_dir ∨
    ((pySplitWhitespace line).head? = some "cd" ∧
      isDirAt s.fs ((run_command s line).state.current_dir) = true) := by
  rcases run_command_scenarios s line with ⟨_, h⟩ | ⟨args, hp, h⟩ | ⟨args, hp, h⟩ |
    ⟨args, _, h⟩ | ⟨args, _, h⟩ | ⟨args, _, h⟩ | ⟨args, _, h⟩ |
    ⟨c, args, _, _, _, _, _, _, _, h⟩
  · left; rw [h]
  · left; rw [h]
    rcases command_ls_cases s args with ⟨_, he⟩ | ⟨_, he⟩ <;> rw [he]
  · rcases command_cd_cases s args with ⟨hd, he⟩ | ⟨_, he⟩
    · right
      refine ⟨by rw [hp]; rfl, ?_⟩
      rw [h, he]
      exact hd
    · left; rw [h, he]
  · left; rw [h]; rfl
  · left; rw [h]; rfl
  · left; rw [h]
    rcases command_chmod_cases s args with ⟨m, p, ha, ⟨_, he⟩ | ⟨_, he⟩⟩ | ⟨_, he⟩ <;> rw [he]
  · left; rw [h]
    rcases command_du_cases s args with ⟨_, he⟩ | ⟨_, he⟩ <;> rw [he]
  · left; rw [h]

theorem startsWithSlash_cdTarget (s : ShellState) (args : List String)
    (h : startsWithSlash s.current_dir.data = true) :
    startsWithSlash (cdTarget s args).data = true := by
  cases args with
  | nil => rfl
  | cons a rest => exact startsWithSlash_resolve s.current_dir a h

theorem run_command_abs (s : ShellState) (line : String)
    (h : startsWithSlash s.current_dir.data = true) :
    startsWithSlash (run_command s line).state.current_dir.data = true := by
  rcases run_command_cur_cases s line with he | ⟨hp, hd⟩
  · rw [he]; exact h
  · rcases run_command_scenarios s line with ⟨_, hr⟩ | ⟨args, hq, hr⟩ | ⟨args, hq, hr⟩ |
      ⟨args, hq, hr⟩ | ⟨args, hq, hr⟩ | ⟨args, hq, hr⟩ | ⟨args, hq, hr⟩ |
      ⟨c, args, hq, _, _, _, _, _, _, hr⟩
    all_goals first
      | (rw [hr]; exact h)
      | (rw [hr]
         rcases command_cd_cases s args with ⟨_, he⟩ | ⟨_, he⟩
         · rw [he]
           exact startsWithSlash_cdTarget s args h
         · rw [he]; exact h)
      | (rw [hr]
         rcases command_ls_cases s args with ⟨_, he⟩ | ⟨_, he⟩ <;> (rw [he]; exact h))
      | (rw [hr]
         rcases command_du_cases s args with ⟨_, he⟩ | ⟨_, he⟩ <;> (rw [he]; exact h))
      | (rw [hr]
         rcases command_chmod_cases s args with ⟨m, p, ha, ⟨_, he⟩ | ⟨_, he⟩⟩ | ⟨_, he⟩ <;>
           (rw [he]; exact h))

/-! ### Reachability invariants -/

theorem reachable_fs (fs : FS) (s : ShellState) (h : Reachable fs s) : s.fs = fs := by
  induction h with
  | init => rfl
  | step s' line _ ih => rw [run_command_fs]; exact ih

theorem reachable_abs (fs : FS) (s : ShellState) (h : Reachable fs s) :
    startsWithSlash s.current_dir.data = true := by
  induction h with
  | init => rfl
  | step s' line _ ih => exact run_command_abs s' line ih

theorem reachable_cur_dir (fs : FS) (s : ShellState) (h : Reachable fs s) :
    s.current_dir = "/" ∨ isDirAt fs s.current_dir = true := by
  induction h with
  | init => exact Or.inl rfl
  | step s' line h ih =>
    rcases run_command_cur_cases s' line with he | ⟨_, hd⟩
    · rw [he]; exact ih
    · right
      rw [reachable_fs fs s' h] at hd
      exact hd

/-! ### Audit-log discipline -/

theorem run_command_log (s : ShellState) (line : String) :
    (run_command s line).state.log = s.log ++ specLogDelta s line := by
  rcases run_command_scenarios s line with ⟨hp, h⟩ | ⟨args, hp, h⟩ | ⟨args, hp, h⟩ |
    ⟨args, hp, h⟩ | ⟨args, hp, h⟩ | ⟨args, hp, h⟩ | ⟨args, hp, h⟩ |
    ⟨c, args, hp, h1, h2, h3, h4, h5, h6, h⟩
  · rw [h]; simp [specLogDelta, hp]
  · rw [h]
    rcases command_ls_cases s args with ⟨hd, he⟩ | ⟨hd, he⟩ <;>
      (rw [he]; simp [specLogDelta, hp, hd])
  · rw [h]
    rcases command_cd_cases s args with ⟨hd, he⟩ | ⟨hd, he⟩ <;>
      (rw [he]; simp [specLogDelta, hp, hd])
  · rw [h]; simp [specLogDelta, hp, command_exit]
  · rw [h]; simp [specLogDelta, hp, command_uname]
  · rw [h]
    rcases command_chmod_cases s args with ⟨m, p, ha, ⟨hc, he⟩ | ⟨hc, he⟩⟩ | ⟨hlen, he⟩
    · rw [he]; simp [specLogDelta, hp, ha, hc]
    · rw [he]; simp [specLogDelta, hp, ha, hc]
    · rw [he]
      simp only [specLogDelta, hp]
      cases args with
      | nil => simp
      | cons a t =>
        cases t with
        | nil => simp
        | cons b t2 =>
          cases t2 with
          | nil => simp at hlen
          | cons c2 t3 => simp
  · rw [h]
    rcases command_du_cases s args with ⟨hd, he⟩ | ⟨hd, he⟩ <;>
      (rw [he]; simp [specLogDelta, hp, hd])
  · rw [h]; simp [specLogDelta, hp, h1, h2, h3, h4, h5, h6]

theorem specLogDelta_length (s : ShellState) (line : String) :
    (specLogDelta s line).length ≤ 1 := by
  unfold specLogDelta
  cases hp : pySplitWhitespace line with
  | nil => simp
  | cons command args =>
    simp only
    split_ifs <;>
      first
        | simp
        | (split <;> simp)
        | (rcases args with _ | ⟨a, _ | ⟨b, _ | ⟨c2, t⟩⟩⟩ <;> simp <;> split <;> simp)

/-! ### The key-iterated `du` sum equals the per-entry sum on unique keys -/

theorem fsKeys_cons (k : String) (v : Entry) (rest : FS) :
    fsKeys ((k, v) :: rest) = k :: fsKeys rest := rfl

theorem fsLookup_self_of_nodup (fs : FS) (h : (fsKeys fs).Nodup) :
    ∀ kv ∈ fs, fsLookup? fs kv.1 = some kv.2 := by
  induction fs with
  | nil => intro kv hkv; simp at hkv
  | cons hd rest ih =>
    obtain ⟨k, v⟩ := hd
    rw [fsKeys_cons] at h
    have hnd := List.nodup_cons.mp h
    intro kv hkv
    rcases List.mem_cons.mp hkv with he | hm
    · subst he
      simp [fsLookup?]
    · have hne : ¬ k = kv.1 := by
        intro hk
        apply hnd.1
        rw [hk]
        exact List.mem_map.mpr ⟨kv, hm, rfl⟩
      simp only [fsLookup?, if_neg hne]
      exact ih hnd.2 kv hm

theorem keys_sum_eq_entry_sum (path : String) :
    ∀ (fs' big : FS),
      (∀ kv ∈ fs', fsLookup? big kv.1 = some kv.2) →
      (((fsKeys fs').filter fun n => pyStartswith n path).map (fsSizeAt big)).sum =
        ((fs'.filter fun kv => pyStartswith kv.1 path).map fun kv => kv.2.size).sum := by
  intro fs'
  induction fs' with
  | nil => intro big _; rfl
  | cons hd rest ih =>
    obtain ⟨k, v⟩ := hd
    intro big hlk
    have hk : fsLookup? big k = some v := hlk (k, v) (by simp)
    have hsz : fsSizeAt big k = v.size := by simp [fsSizeAt, hk]
    have hrest := ih big (fun kv hkv => hlk kv (List.mem_cons_of_mem _ hkv))
    rw [fsKeys_cons, List.filter_cons, List.filter_cons]
    by_cases hp : pyStartswith k path = true
    · simp only [hp, if_true, List.map_cons, List.sum_cons, hsz, hrest]
    · have hp2 : pyStartswith k path = false := by simpa using hp
      simp only [hp2, Bool.false_eq_true, if_false, hrest]

theorem duSizeKeys_eq_entry_sum (fs : FS) (path : String) (h : (fsKeys fs).Nodup) :
    duSizeKeys fs path =
      ((fs.filter fun kv => pyStartswith kv.1 path).map fun kv => kv.2.size).sum :=
  keys_sum_eq_entry_sum path fs fs (fsLookup_self_of_nodup fs h)

/-! ### The checked semantics never raises -/

theorem fsIndex_of_contains (fs : FS) (p : String) (h : fsContains fs p = true) :
    ∃ e, fsLookup? fs p = some e ∧ fsIndex fs p = Except.ok e := by
  unfold fsContains at h
  cases hl : fsLookup? fs p with
  | none => rw [hl] at h; simp at h
  | some e => exact ⟨e, rfl, by simp [fsIndex, hl]⟩

theorem mem_fsKeys_contains (fs : FS) (n : String) (h : n ∈ fsKeys fs) :
    fsContains fs n = true := by
  induction fs with
  | nil => simp [fsKeys] at h
  | cons kv rest ih =>
    obtain ⟨k, v⟩ := kv
    rw [fsKeys_cons] at h
    rcases List.mem_cons.mp h with he | hm
    · subst he
      simp [fsContains, fsLookup?]
    · by_cases hk : k = n
      · simp [fsContains, fsLookup?, hk]
      · simpa [fsContains, fsLookup?, hk] using ih hm

theorem duSumExc_ok (fs : FS) (path : String) :
    ∀ (names : List String) (acc : Nat),
      (∀ n ∈ names, fsContains fs n = true) →
      duSumExc fs path names acc =
        Except.ok (acc + ((names.filter fun n => pyStartswith n path).map (fsSizeAt fs)).sum) := by
  intro names
  induction names with
  | nil => intro acc _; simp [duSumExc]
  | cons n rest ih =>
    intro acc h
    obtain ⟨e, hl, hi⟩ := fsIndex_of_contains fs n (h n (by simp))
    have hsz : fsSizeAt fs n = e.size := by simp [fsSizeAt, hl]
    have ihr := ih (acc + e.size) (fun x hx => h x (List.mem_cons_of_mem n hx))
    have ihr2 := ih acc (fun x hx => h x (List.mem_cons_of_mem n hx))
    unfold duSumExc
    rw [List.filter_cons]
    by_cases hp : pyStartswith n path = true
    · simp only [hp, if_true, hi, List.map_cons, List.sum_cons, hsz]
      rw [ihr]
      congr 1
      omega
    · have hp2 : pyStartswith n path = false := by simpa using hp
      simp only [hp2, Bool.false_eq_true, if_false]
      exact ihr2

theorem command_ls_exc_ok (s : ShellState) (args : List String) :
    command_ls_exc s args = Except.ok (command_ls s args) := by
  cases hl : fsLookup? s.fs (lsTarget s args) with
  | none =>
    have hc : fsContains s.fs (lsTarget s args) = false := by simp [fsContains, hl]
    have hd : isDirAt s.fs (lsTarget s args) = false := by simp [isDirAt, hl]
    simp [command_ls_exc, command_ls, hc, hd]
  | some e =>
    have hc : fsContains s.fs (lsTarget s args) = true := by simp [fsContains, hl]
    have hi : fsIndex s.fs (lsTarget s args) = Except.ok e := by simp [fsIndex, hl]
    have hd : isDirAt s.fs (lsTarget s args) = e.kind.isDir := by simp [isDirAt, hl]
    cases he : e.kind.isDir <;>
      simp [command_ls_exc, command_ls, hc, hi, hd, he]

theorem command_cd_exc_ok (s : ShellState) (args : List String) :
    command_cd_exc s args = Except.ok (command_cd s args) := by
  cases hl : fsLookup? s.fs (cdTarget s args) with
  | none =>
    have hc : fsContains s.fs (cdTarget s args) = false := by simp [fsContains, hl]
    have hd : isDirAt s.fs (cdTarget s args) = false := by simp [isDirAt, hl]
    simp [command_cd_exc, command_cd, hc, hd]
  | some e =>
    have hc : fsContains s.fs (cdTarget s args) = true := by simp [fsContains, hl]
    have hi : fsIndex s.fs (cdTarget s args) = Except.ok e := by simp [fsIndex, hl]
    have hd : isDirAt s.fs (cdTarget s args) = e.kind.isDir := by simp [isDirAt, hl]
    cases he : e.kind.isDir <;>
      simp [command_cd_exc, command_cd, hc, hi, hd, he]

theorem command_du_exc_ok (s : ShellState) (args : List String) :
    command_du_exc s args = Except.ok (command_du s args) := by
  by_cases hc : fsContains s.fs (duTarget s args) = true
  · have hs := duSumExc_ok s.fs (duTarget s args) (fsKeys s.fs) 0
      (fun n hn => mem_fsKeys_contains s.fs n hn)
    simp [command_du_exc, command_du, hc, hs, duSizeKeys]
  · have hc2 : fsContains s.fs (duTarget s args) = false := by simpa using hc
    simp [command_du_exc, command_du, hc2]

theorem run_command_exc_ok (s : ShellState) (line : String) :
    run_command_exc s line = Except.ok (run_command s line) := by
  unfold run_command_exc run_command
  cases hp : pySplitWhitespace line with
  | nil => rfl
  | cons command args =>
    by_cases h1 : command = "ls"
    · simp [h1, command_ls_exc_ok]
    · by_cases h2 : command = "cd"
      · simp [h1, h2, command_cd_exc_ok]
      · by_cases h3 : command = "exit"
        · simp [h1, h2, h3]
        · by_cases h4 : command = "uname"
          · simp [h1, h2, h3, h4]
          · by_cases h5 : command = "chmod"
            · simp [h1, h2, h3, h4, h5]
            · by_cases h6 : command = "du"
              · simp [h1, h2, h3, h4, h5, h6, command_du_exc_ok]
              · simp [h1, h2, h3, h4, h5, h6]

/-! ### Claim theorems -/

/-- Counterexample to claim C1: with a table that does not contain the key
`/` (here the empty table), `cd` with no arguments does not succeed — it
returns the No-such-file error and appends no log record — and `ls /` returns
the error rather than listing children.  The code has no special case for the
root path. -/
theorem root_absent_cd_fails_cex :
    (command_cd (initState []) []).1 = "cd: /: No such file or directory" ∧
    (command_cd (initState []) []).2.current_dir = "/" ∧
    (command_cd (initState []) []).2.log = [] ∧
    (command_ls (initState []) ["/"]).1 =
      "ls: cannot access '/': No such file or directory" := by
  refine ⟨?_, ?_, ?_, ?_⟩ <;> decide

/-- Claim C1, amended: the root path `/` is treated as a valid directory only
when it is a key of the table with directory kind; then `cd` with no
arguments succeeds and sets the current directory to `/`.  When `/` is absent
(or not a directory), `cd` with no arguments returns the No-such-file error
and leaves the current directory unchanged, and `ls /` returns the error
rather than listing children. -/
theorem root_valid_iff_table_entry :
    ∀ s : ShellState,
      (isDirAt s.fs "/" = true →
        (command_cd s []).1 = "" ∧ (command_cd s []).2.current_dir = "/") ∧
      (isDirAt s.fs "/" = false →
        (command_cd s []).1 = "cd: /: No such file or directory" ∧
        (command_cd s []).2.current_dir = s.current_dir ∧
        (command_ls s ["/"]).1 = "ls: cannot access '/': No such file or directory") := by
  intro s
  have hcdt : cdTarget s [] = "/" := rfl
  have hlst : lsTarget s ["/"] = "/" := rfl
  constructor
  · intro hd
    rcases command_cd_cases s [] with ⟨_, he⟩ | ⟨hdf, _⟩
    · rw [he]; exact ⟨rfl, rfl⟩
    · rw [hcdt, hd] at hdf; simp at hdf
  · intro hd
    rcases command_cd_cases s [] with ⟨hdt, _⟩ | ⟨_, he⟩
    · rw [hcdt, hd] at hdt; simp at hdt
    · refine ⟨?_, by rw [he], ?_⟩
      · rw [he, hcdt]; rfl
      · rcases command_ls_cases s ["/"] with ⟨hdt, _⟩ | ⟨_, hel⟩
        · rw [hlst, hd] at hdt; simp at hdt
        · rw [hel, hlst]; rfl

/-- Witness for C1 (amended): with `/` present as a directory entry, `cd`
with no arguments succeeds and sets the current directory to `/`. -/
theorem root_valid_iff_table_entry_witness :
    (command_cd (initState [("/", ⟨Kind.dir, 0⟩)]) []).1 = "" ∧
      (command_cd (initState [("/", ⟨Kind.dir, 0⟩)]) []).2.current_dir = "/" :=
  (root_valid_iff_table_entry (initState [("/", ⟨Kind.dir, 0⟩)])).1 (by decide)

/-- Claim C2: every processed input line appends to the audit log exactly the
records given by the spec's table — one record, carrying the command's action
name, on each success branch (`exit` and `uname` always), and no record for
empty lines, unknown verbs, or validation failures — and that delta never
exceeds one record. -/
theorem log_append_discipline :
    ∀ (s : ShellState) (line : String),
      (run_command s line).state.log = s.log ++ specLogDelta s line ∧
      (specLogDelta s line).length ≤ 1 :=
  fun s line => ⟨run_command_log s line, specLogDelta_length s line⟩

/-- Claim C3: when the resolved `du` target is a key of the table, the output
is `<size>\t<path>` where the size is the sum of `size` over every table
entry whose path string starts with the target (the target's own entry
included); otherwise the output is the cannot-access error.  With no argument
the target defaults to the current directory (built into `duTarget`). -/
theorem du_reports_prefix_sum :
    ∀ (s : ShellState) (args : List String),
      (fsKeys s.fs).Nodup →
      (fsContains s.fs (duTarget s args) = true →
        (command_du s args).1 =
          toString (((s.fs.filter fun kv => pyStartswith kv.1 (duTarget s args)).map
            fun kv => kv.2.size).sum) ++ "\t" ++ duTarget s args) ∧
      (fsContains s.fs (duTarget s args) = false →
        (command_du s args).1 =
          "du: cannot access '" ++ duTarget s args ++ "': No such file or directory") := by
  intro s args hnd
  constructor
  · intro hc
    have h1 : (command_du s args).1 =
        toString (duSizeKeys s.fs (duTarget s args)) ++ "\t" ++ duTarget s args := by
      simp [command_du, hc]
    rw [h1, duSizeKeys_eq_entry_sum s.fs (duTarget s args) hnd]
  · intro hc
    simp [command_du, hc]

/-- Witness for C3: on the demonstration table, `du /home` reports the sum of
all entries whose path starts with `/home` — 0 + 42 + 8 + 7 = 57, the sibling
`/home2/x` included by the prefix match. -/
theorem du_reports_prefix_sum_witness :
    (command_du (initState demoFS) ["/home"]).1 =
      toString ((((initState demoFS).fs.filter fun kv =>
          pyStartswith kv.1 (duTarget (initState demoFS) ["/home"])).map
        fun kv => kv.2.size).sum) ++ "\t" ++ duTarget (initState demoFS) ["/home"] :=
  (du_reports_prefix_sum (initState demoFS) ["/home"] (by decide)).1 (by decide)

/-- Claim C4: when the resolved `ls` target is a directory entry, the output
joins with newlines exactly the keys that start with the target string and
differ from it, in table iteration order; every such key is listed, so
entries under sibling names sharing the prefix are included — concretely, on
the demonstration table `ls /home` also lists `/home2/x`. -/
theorem ls_lists_prefix_matches :
    (∀ (s : ShellState) (args : List String),
      isDirAt s.fs (lsTarget s args) = true →
        (command_ls s args).1 =
          String.intercalate "\n" ((fsKeys s.fs).filter fun name =>
            pyStartswith name (lsTarget s args) && name != lsTarget s args) ∧
        (∀ name ∈ fsKeys s.fs,
            pyStartswith name (lsTarget s args) = true → name ≠ lsTarget s args →
            name ∈ (fsKeys s.fs).filter fun name =>
              pyStartswith name (lsTarget s args) && name != lsTarget s args)) ∧
    (command_ls (initState demoFS) ["/home"]).1 = "/home/file.txt\n/home/b\n/home2/x" := by
  constructor
  · intro s args hd
    rcases command_ls_cases s args with ⟨_, he⟩ | ⟨hdf, _⟩
    · constructor
      · rw [he]
      · intro name hmem hps hne
        refine List.mem_filter.mpr ⟨hmem, ?_⟩
        simp [hps, hne]
    · rw [hd] at hdf; simp at hdf
  · decide

/-- Witness for C4: the general part applied to the demonstration table,
`ls /home`. -/
theorem ls_lists_prefix_matches_witness :
    (command_ls (initState demoFS) ["/home"]).1 =
      String.intercalate "\n" ((fsKeys (initState demoFS).fs).filter fun name =>
        pyStartswith name (lsTarget (initState demoFS) ["/home"]) &&
          name != lsTarget (initState demoFS) ["/home"]) :=
  ((ls_lists_prefix_matches.1 (initState demoFS) ["/home"]) (by decide)).1

/-- Claim C5: `cd` succeeds exactly when the resolved target is a directory
entry of the table; on any other target it returns the No-such-file error,
leaves the current directory unchanged, and appends no log record. -/
theorem cd_requires_directory :
    ∀ (s : ShellState) (args : List String),
      (isDirAt s.fs (cdTarget s args) = true →
        (command_cd s args).1 = "" ∧
        (command_cd s args).2.current_dir = cdTarget s args) ∧
      (isDirAt s.fs (cdTarget s args) = false →
        (command_cd s args).1 = "cd: " ++ cdTarget s args ++ ": No such file or directory" ∧
        (command_cd s args).2.current_dir = s.current_dir ∧
        (command_cd s args).2.log = s.log) := by
  intro s args
  rcases command_cd_cases s args with ⟨hd, he⟩ | ⟨hd, he⟩
  · constructor
    · intro _; rw [he]; exact ⟨rfl, rfl⟩
    · intro hf; rw [hd] at hf; simp at hf
  · constructor
    · intro ht; rw [hd] at ht; simp at ht
    · intro _; rw [he]; exact ⟨rfl, rfl, rfl⟩

/-- Witness for C5: `cd /nope` on the demonstration table fails, reports the
error, and leaves both the current directory and the log unchanged. -/
theorem cd_requires_directory_witness :
    (command_cd (initState demoFS) ["/nope"]).1 =
        "cd: " ++ cdTarget (initState demoFS) ["/nope"] ++ ": No such file or directory" ∧
      (command_cd (initState demoFS) ["/nope"]).2.current_dir =
        (initState demoFS).current_dir ∧
      (command_cd (initState demoFS) ["/nope"]).2.log = (initState demoFS).log :=
  (cd_requires_directory (initState demoFS) ["/nope"]).2 (by decide)

/-- Claim C6: path resolution is idempotent for every current directory —
`resolve(d, resolve(d, p)) = resolve(d, p)` whenever `d` is absolute, and
every reachable session's current directory is absolute (it starts at `/`
and `cd` only ever installs resolved paths). -/
theorem resolve_path_idempotent :
    (∀ d p : String, startsWithSlash d.data = true →
      resolve_path d (resolve_path d p) = resolve_path d p) ∧
    (∀ (fs : FS) (s : ShellState), Reachable fs s →
      startsWithSlash s.current_dir.data = true) :=
  ⟨resolve_path_idem_abs, reachable_abs⟩

/-- Witness for C6: a concrete double resolution from `/usr`. -/
theorem resolve_path_idempotent_witness :
    resolve_path "/usr" (resolve_path "/usr" "lib/../bin/./x") =
      resolve_path "/usr" "lib/../bin/./x" :=
  resolve_path_idempotent.1 "/usr" "lib/../bin/./x" (by decide)

/-- Claim C7: `chmod` with an argument count other than 2 (fewer or more)
returns `chmod: missing operand`, changes no state, and appends no log
record; with exactly 2 arguments and an existing resolved target it returns
the empty string and appends the record `("chmod", "<mode> <path>")`, leaving
the table and the current directory (the only other state) untouched. -/
theorem chmod_arity_and_logging :
    ∀ (s : ShellState) (args : List String),
      (args.length ≠ 2 →
        command_chmod s args = ("chmod: missing operand", s)) ∧
      (∀ mode p, args = [mode, p] →
        fsContains s.fs (resolve_path s.current_dir p) = true →
        (command_chmod s args).1 = "" ∧
        (command_chmod s args).2.log =
          s.log ++ [("chmod", mode ++ " " ++ resolve_path s.current_dir p)] ∧
        (command_chmod s args).2.current_dir = s.current_dir ∧
        (command_chmod s args).2.fs = s.fs) := by
  intro s args
  constructor
  · intro hlen
    cases args with
    | nil => rfl
    | cons a t =>
      cases t with
      | nil => rfl
      | cons b t2 =>
        cases t2 with
        | nil => simp at hlen
        | cons c t3 => rfl
  · intro mode p ha hc
    subst ha
    have he : command_chmod s [mode, p] =
        ("", { s with log := s.log ++
          [("chmod", mode ++ " " ++ resolve_path s.current_dir p)] }) := by
      simp [command_chmod, hc]
    rw [he]
    exact ⟨rfl, rfl, rfl, rfl⟩

/-- Witness for C7: one argument is rejected with `chmod: missing operand`
and the state is unchanged. -/
theorem chmod_arity_and_logging_witness :
    command_chmod (initState demoFS) ["755"] = ("chmod: missing operand", initState demoFS) :=
  (chmod_arity_and_logging (initState demoFS) ["755"]).1 (by decide)

/-- Claim C8: at every reachable session state the current directory is the
initial `/` or a directory-kind key of the table, and the only dispatch that
ever changes the current directory is a `cd` line whose target is a directory
entry. -/
theorem current_dir_invariant :
    (∀ (fs : FS) (s : ShellState), Reachable fs s →
      s.current_dir = "/" ∨ isDirAt fs s.current_dir = true) ∧
    (∀ (s : ShellState) (line : String),
      (run_command s line).state.current_dir ≠ s.current_dir →
      (pySplitWhitespace line).head? = some "cd" ∧
        isDirAt s.fs ((run_command s line).state.current_dir) = true) := by
  constructor
  · exact reachable_cur_dir
  · intro s line hne
    rcases run_command_cur_cases s line with he | h
    · exact absurd he hne
    · exact h

/-- Witness for C8: the invariant at the initial state of the demonstration
table. -/
theorem current_dir_invariant_witness :
    (initState demoFS).current_dir = "/" ∨
      isDirAt demoFS (initState demoFS).current_dir = true :=
  current_dir_invariant.1 demoFS (initState demoFS) Reachable.init

/-- Claim C9: `ls`, `cd`, and `du` read only the first positional argument —
any further arguments are ignored, with no wrong-argument-count diagnostic;
concretely `ls /a /b` behaves exactly like `ls /a`. -/
theorem extra_args_ignored :
    (∀ (s : ShellState) (a : String) (rest : List String),
      command_ls s (a :: rest) = command_ls s [a] ∧
      command_cd s (a :: rest) = command_cd s [a] ∧
      command_du s (a :: rest) = command_du s [a]) ∧
    (∀ s : ShellState, run_command s "ls /a /b" = run_command s "ls /a") :=
  ⟨fun _ _ _ => ⟨rfl, rfl, rfl⟩, fun _ => rfl⟩

/-- Claim C10: the engine is total — in the checked semantics, where every
dict subscription may raise `KeyError`, every line on every state returns
`Except.ok` of exactly the plain result (all subscriptions are guarded), and
the `exit` verb is the sole terminating dispatch. -/
theorem run_command_total_no_keyerror :
    ∀ (s : ShellState) (line : String),
      run_command_exc s line = Except.ok (run_command s line) ∧
      ((run_command s line).exited = true ↔
        (pySplitWhitespace line).head? = some "exit") := by
  intro s line
  refine ⟨run_command_exc_ok s line, ?_⟩
  rcases run_command_scenarios s line with ⟨hp, h⟩ | ⟨args, hp, h⟩ | ⟨args, hp, h⟩ |
    ⟨args, hp, h⟩ | ⟨args, hp, h⟩ | ⟨args, hp, h⟩ | ⟨args, hp, h⟩ |
    ⟨c, args, hp, h1, h2, h3, h4, h5, h6, h⟩
  · rw [h, hp]; simp
  · rw [h, hp]; simp
  · rw [h, hp]; simp
  · rw [h, hp]; simp [command_exit]
  · rw [h, hp]; simp
  · rw [h, hp]; simp
  · rw [h, hp]; simp
  · rw [h, hp]; simp [h3]
